import Mathlib

/-!
# goven: import rewriting and vendoring pipeline (main.go)

A shallow embedding of `main.go`.  Go strings are modelled as lists of Unicode
code points (`List Char`); the text handled by the program (Go source files, import
paths, the `dependencies` file) is UTF-8 text, on which the byte-wise
library functions used by the program (`strings.HasPrefix`, slicing at
`len(dep)`, `filepath.Base`, `strings.Split`) agree with their code-point-wise
versions below.  A Go `error` value is a message; `nil` is `none`.
-/

namespace Goven

/-- A Go `error` value that is not nil. -/
abbrev Error := String

/-- How a piece of Go code ends: it returns a value, it ends the process through
`log.Fatal`, or it stops with a run-time panic. -/
inductive Run (α : Type) where
  | ret (a : α)
  | fatal (e : Error)
  | panicked
  deriving DecidableEq, Repr

deriving instance DecidableEq for Except

/-! ## Standard library functions used by main.go -/

namespace strings

/-- Go `strings.HasPrefix(s, pre)`: `len(s) >= len(pre) && s[:len(pre)] == pre`. -/
def HasPrefix (s pre : List Char) : Bool :=
  decide (pre.length ≤ s.length) && (s.take pre.length == pre)

/-- Go `strings.HasSuffix(s, suf)`: `len(s) >= len(suf) && s[len(s)-len(suf):] == suf`. -/
def HasSuffix (s suf : List Char) : Bool :=
  decide (suf.length ≤ s.length) && (s.drop (s.length - suf.length) == suf)

/-- Go `unicode.IsSpace`: the white space code points. -/
def isSpace (c : Char) : Bool :=
  let n := c.toNat
  (9 ≤ n && n ≤ 13) || n == 32 || n == 0x85 || n == 0xA0 || n == 0x1680 ||
  (0x2000 ≤ n && n ≤ 0x200A) || n == 0x2028 || n == 0x2029 || n == 0x202F ||
  n == 0x205F || n == 0x3000

/-- Go `strings.TrimSpace`: leading and trailing white space removed. -/
def TrimSpace (s : List Char) : List Char :=
  ((s.dropWhile isSpace).reverse.dropWhile isSpace).reverse

/-- The loop of Go `strings.Split(s, sep)` for a non-empty `sep`: `skip` counts the
characters of a separator occurrence still to be passed over, `cur` is the piece
being collected (reversed). -/
def splitLoop (sep : List Char) : Nat → List Char → List Char → List (List Char)
  | _, cur, [] => [cur.reverse]
  | skip + 1, cur, _ :: cs => splitLoop sep skip cur cs
  | 0, cur, c :: cs =>
    if HasPrefix (c :: cs) sep then cur.reverse :: splitLoop sep (sep.length - 1) [] cs
    else splitLoop sep 0 (c :: cur) cs

/-- Go `strings.Split(s, sep)` for a non-empty `sep`: the pieces of `s` between the
occurrences of `sep`, found left to right; one more piece than occurrences. -/
def Split (s sep : List Char) : List (List Char) :=
  splitLoop sep 0 [] s

end strings

namespace filepath

/-- Go `filepath.Base` (Unix): the last element of the path; trailing slashes are
removed first, the empty path gives ".", a path of slashes only gives "/". -/
def Base (path : List Char) : List Char :=
  if path = [] then ['.']
  else
    let p := (path.reverse.dropWhile (fun c => c == '/')).reverse
    let p := (p.reverse.takeWhile (fun c => c != '/')).reverse
    if p = [] then ['/'] else p

end filepath

/-! ## Data model -/

/-- Go `ast.BasicLit`: a literal as written in the source text. -/
structure BasicLit where
  Value : List Char
  deriving DecidableEq, Repr

/-- Go `ast.ImportSpec`: one import declaration; `Path.Value` is the quoted path. -/
structure ImportSpec where
  Path : BasicLit
  deriving DecidableEq, Repr

/-- Go `ast.File`: the import declarations in source order and the remainder of
the syntax tree, which main.go never inspects. -/
structure File where
  Imports : List ImportSpec
  Rest : List Char
  deriving DecidableEq, Repr

/-- An entry of the storage: a regular file with its content, or a directory. -/
inductive Node where
  | file (data : List Char)
  | dir
  deriving DecidableEq, Repr

/-- The storage: what is stored at each path, if anything. -/
abbrev FS := List Char → Option Node

/-- A mutation of the storage attempted by `mangleFile`. -/
inductive StorageOp where
  | create (name : List Char)
  | write (name : List Char)
  | close (name : List Char)
  | rename (oldpath newpath : List Char)
  deriving DecidableEq, Repr

/-- The storage together with the mutations attempted on it so far. -/
structure Store where
  fs : FS
  ops : List StorageOp

/-- The library collaborators of `mangleFile`: `strconv.Unquote`, `strconv.Quote`,
`parser.ParseFile` (reading the file at a path of the storage) and the text that
`printer.Fprint` emits for a syntax tree. -/
structure Lib where
  Unquote : List Char → Except Error (List Char)
  Quote : List Char → List Char
  ParseFile : FS → List Char → Except Error File
  Fprint : File → List Char

/-- The outcome of each storage call of one `mangleFile` run: `none` is success.
A failing `printer.Fprint` leaves `torn` as the content of the temporary file. -/
structure Faults where
  create : Option Error
  print : Option Error
  torn : List Char
  close : Option Error
  rename : Option Error

/-- Storage after a successful write of `data` to the regular file `name`. -/
def FS.put (fs : FS) (name data : List Char) : FS :=
  fun q => if q = name then some (Node.file data) else fs q

/-- Storage after a successful `os.Rename(oldpath, newpath)`. -/
def FS.move (fs : FS) (oldpath newpath : List Char) : FS :=
  fun q => if q = newpath then fs oldpath else if q = oldpath then none else fs q

/-! ## The import rewriter (main.go, `mangleFile`) -/

/-- The loop `for _, dep := range deps` of `mangleFile` (lines 202-207) for one import
whose unquoted path is `path`; the state is `s.Path.Value` and `changed`.
The loop has no `break`: every matching `dep` assigns again. -/
def mangleDeps (Quote : List Char → List Char) (curgodir path : List Char) :
    List (List Char) → List Char × Bool → List Char × Bool
  | [], st => st
  | dep :: rest, (value, changed) =>
    if strings.HasPrefix path dep then
      mangleDeps Quote curgodir path rest
        (Quote (curgodir ++ ['/'] ++ filepath.Base dep ++ path.drop dep.length), true)
    else mangleDeps Quote curgodir path rest (value, changed)

/-- The body of the loop `for _, s := range f.Imports` (lines 198-207): unquote the
path, return the error if that fails, otherwise run the loop over `deps`. -/
def mangleImport (lib : Lib) (curgodir : List Char) (deps : List (List Char))
    (s : ImportSpec) (changed : Bool) : Except Error (ImportSpec × Bool) :=
  match lib.Unquote s.Path.Value with
  | .error e => .error e
  | .ok path =>
    let r := mangleDeps lib.Quote curgodir path deps (s.Path.Value, changed)
    .ok ({ Path := { Value := r.1 } }, r.2)

/-- The loop `for _, s := range f.Imports` (lines 197-208). -/
def mangleImports (lib : Lib) (curgodir : List Char) (deps : List (List Char)) :
    List ImportSpec → Bool → Except Error (List ImportSpec × Bool)
  | [], changed => .ok ([], changed)
  | s :: rest, changed =>
    match mangleImport lib curgodir deps s changed with
    | .error e => .error e
    | .ok (s1, changed1) =>
      match mangleImports lib curgodir deps rest changed1 with
      | .error e => .error e
      | .ok (rest1, changed2) => .ok (s1 :: rest1, changed2)

/-- Go `mangleFile(path)` (lines 189-231) with the globals `curgodir` and `deps`:
the returned error (`none` is nil) and the storage afterwards. -/
def mangleFile (lib : Lib) (faults : Faults) (curgodir : List Char)
    (deps : List (List Char)) (path : List Char) (st : Store) : Option Error × Store :=
  match lib.ParseFile st.fs path with
  | .error e => (some e, st)
  | .ok f =>
    match mangleImports lib curgodir deps f.Imports false with
    | .error e => (some e, st)
    | .ok (imports, changed) =>
      if !changed then (none, st)
      else
        let wpath := path ++ ".temp".toList
        let ops1 := st.ops ++ [StorageOp.create wpath]
        match faults.create with
        | some e => (some e, { fs := st.fs, ops := ops1 })
        | none =>
          let fs1 := st.fs.put wpath []
          let ops2 := ops1 ++ [StorageOp.write wpath]
          match faults.print with
          | some e => (some e, { fs := fs1.put wpath faults.torn, ops := ops2 })
          | none =>
            let fs2 := fs1.put wpath (lib.Fprint { Imports := imports, Rest := f.Rest })
            let ops3 := ops2 ++ [StorageOp.close wpath]
            match faults.close with
            | some e => (some e, { fs := fs2, ops := ops3 })
            | none =>
              let ops4 := ops3 ++ [StorageOp.rename wpath path]
              match faults.rename with
              | some e => (some e, { fs := fs2, ops := ops4 })
              | none => (none, { fs := fs2.move wpath path, ops := ops4 })

/-- Library behaviour on literals free of escape sequences: `strconv.Quote` puts
the text between double quotes, `strconv.Unquote` takes them away; parsing gives
the syntax tree `f` for every path, printing emits the quoted paths line by line. -/
def plainLib (f : File) : Lib where
  Unquote := fun v =>
    match v with
    | '"' :: body =>
      if body.getLast? = some '"' then .ok body.dropLast else .error "invalid syntax"
    | _ => .error "invalid syntax"
  Quote := fun p => '"' :: p ++ ['"']
  ParseFile := fun _ _ => .ok f
  Fprint := fun g => (g.Imports.map (fun s => s.Path.Value ++ ['\n'])).flatten ++ g.Rest


/-! ## The walk callback (main.go, `mangle`) -/

/-- Go `os.FileInfo` as far as `mangle` reads it. -/
structure FileInfo where
  Name : List Char
  IsDir : Bool
  deriving DecidableEq, Repr

/-- The process state seen by the walk: the storage, what `log.Print` wrote, and
the paths `mangleFile` has been called on. -/
structure Proc where
  store : Store
  log : List Error
  mangled : List (List Char)

/-- Go `mangle(path, info, err)` (lines 175-187), the `filepath.WalkFunc`.  The
interface value `info` may be nil (`none`): `filepath.Walk` passes nil together
with the error when `os.Lstat` on the entry fails, and `info.IsDir()` on a nil
interface is a run-time panic. -/
def mangle (lib : Lib) (faults : Faults) (curgodir : List Char) (deps : List (List Char))
    (path : List Char) (info : Option FileInfo) (err : Option Error) (p : Proc) :
    Run (Option Error × Proc) :=
  let p1 : Proc :=
    match err with
    | some e => { p with log := p.log ++ [e] }
    | none => p
  match info with
  | none => .panicked
  | some i =>
    if !i.IsDir && strings.HasSuffix path ".go".toList then
      let r := mangleFile lib faults curgodir deps path p1.store
      let p2 : Proc := { store := r.2, log := p1.log, mangled := p1.mangled ++ [path] }
      match r.1 with
      | some e => .ret (none, { p2 with log := p2.log ++ [e] })
      | none => .ret (none, p2)
    else .ret (none, p1)

/-! ## Registry loading (main.go, lines 55-59) -/

/-- The global `deps` after lines 55-59 of `main`: `depFile` is the result of
`ioutil.ReadFile("dependencies")`; `deps` is nil before. -/
def loadDeps (depFile : Except Error (List Char)) (imp : List Char) : List (List Char) :=
  let deps : List (List Char) :=
    match depFile with
    | .ok data => strings.Split (strings.TrimSpace data) "\n".toList
    | .error _ => []
  deps ++ [imp]

/-! ## Revision detection (main.go, `rev` and `revCmd`) -/

/-- Sequencing of code that may end the process. -/
def Run.bind {α β : Type} (r : Run α) (k : α → Run β) : Run β :=
  match r with
  | .ret a => k a
  | .fatal e => .fatal e
  | .panicked => .panicked

/-- Go `os.Stat(name)` returning a nil error: something is stored at `name`. -/
def Stat (fs : FS) (name : List Char) : Bool :=
  (fs name).isSome

/-- Go `revCmd(name, args...)` (lines 135-143); `out` is the result of
`cmd.Output()`.  A failing command ends the process through `log.Fatal`. -/
def revCmd (out : Except Error (List Char)) : Run (List Char) :=
  match out with
  | .error e => .fatal e
  | .ok res => .ret (strings.TrimSpace res)

/-- The Go slice expression `s[:8]`: a run-time panic when `s` is shorter. -/
def slice8 (s : List Char) : Run (List Char) :=
  if 8 ≤ s.length then .ret (s.take 8) else .panicked

/-- Go `rev()` (lines 122-133) with the global `dest`; `Output` gives the result of
`cmd.Output()` for each command line. -/
def rev (Output : List String → Except Error (List Char)) (fs : FS) (dest : List Char) :
    Run (List Char) :=
  if Stat fs (dest ++ "/.git".toList) then
    (revCmd (Output ["git", "rev-parse", "--verify", "HEAD"])).bind slice8
  else if Stat fs (dest ++ "/.hg".toList) then
    (revCmd (Output ["hg", "id", "-i"])).bind slice8
  else if Stat fs (dest ++ "/.bzr".toList) then
    revCmd (Output ["bzr", "revno"])
  else .ret []

/-! ## The copy stage (main.go, lines 42-43 and 62-87) -/

/-- Storage after a successful `os.RemoveAll(name)`: `name` and everything under it
are gone; the empty name removes nothing. -/
def FS.removeAll (fs : FS) (name : List Char) : FS :=
  fun q =>
    if name = [] then fs q
    else if q = name || strings.HasPrefix q (name ++ ['/']) then none else fs q

/-- Storage after a successful `os.MkdirAll(name, perm)`: `name` and the directories
above it exist; what existed is left as it was. -/
def FS.mkdirAll (fs : FS) (name : List Char) : FS :=
  fun q =>
    if (q = name || strings.HasPrefix name (q ++ ['/'])) && (fs q).isNone then some Node.dir
    else fs q

/-- The outcomes of the calls made by the copy stage: `none` is success.  `cp src dst`
is the effect of the external command `cp -r src dst` on the storage. -/
structure CopyWorld where
  removeAll : List Char → Option Error
  mkdirAll : Option Error
  cp : List Char → List Char → FS → Option Error × FS
  Output : List String → Except Error (List Char)

/-- The loop over `scmdirs` (lines 80-86): remove the version-control directories of
the copy, ending the process on a failure. -/
def stripScm (w : CopyWorld) (dest : List Char) : List (List Char) → FS → Run FS
  | [], fs => .ret fs
  | scmdir :: rest, fs =>
    match w.removeAll (dest ++ scmdir) with
    | some e => .fatal e
    | none => stripScm w dest rest (fs.removeAll (dest ++ scmdir))

/-- The block `if *copy` of `main` (lines 62-87), with `dest = filepath.Base(imp)` of
line 43 and `pkgdir` the directory found by `which(imp)`: the revision and the
storage afterwards. -/
def copyStage (w : CopyWorld) (imp pkgdir : List Char) (fs : FS) : Run (List Char × FS) :=
  let dest := filepath.Base imp
  match w.removeAll imp with
  | some e => .fatal e
  | none =>
    let fs1 := fs.removeAll imp
    match w.mkdirAll with
    | some e => .fatal e
    | none =>
      let fs2 := fs1.mkdirAll dest
      match w.cp (pkgdir ++ ['/']) dest fs2 with
      | (some e, _) => .fatal e
      | (none, fs3) =>
        (rev w.Output fs3 dest).bind fun revision =>
          (stripScm w dest ["/.git".toList, "/.hg".toList, "/.bzr".toList] fs3).bind fun fs4 =>
            .ret (revision, fs4)

/-- The effect of `cp -r src/ dst` when `dst` is a directory: every entry below `src`
is stored at the same relative path below `dst`; nothing else changes. -/
def cpContents (src dst : List Char) (fs : FS) : Option Error × FS :=
  (none, fun q =>
    if strings.HasPrefix q (dst ++ ['/']) then
      match fs (src ++ q.drop (dst.length + 1)) with
      | some n => some n
      | none => fs q
    else fs q)

/-- The text of a `dependencies` file without its final newline: the given lines
separated by newlines. -/
def joinLines : List (List Char) → List Char
  | [] => []
  | [p] => p
  | p :: q :: rest => p ++ '\n' :: joinLines (q :: rest)

/-! ## Concrete inputs used by the examples -/

/-- The registry of the end-to-end scenario. -/
def acmeDeps : List (List Char) := ["github.com/acme/lib".toList]

/-- A registry in which two prefixes match the same import path. -/
def nestedDeps : List (List Char) := ["github.com/acme".toList, "github.com/acme/lib".toList]

/-- The import declaration `import "github.com/acme/lib/util"`. -/
def utilImport : ImportSpec := { Path := { Value := "\"github.com/acme/lib/util\"".toList } }

/-- A source file whose only import is `utilImport`. -/
def utilFile : File := { Imports := [utilImport], Rest := "func main() \x7b\x7d\n".toList }

/-- The storage calls `mangleFile` makes for `path`, in order. -/
def rewriteOps (path : List Char) : List StorageOp :=
  [StorageOp.create (path ++ ".temp".toList), StorageOp.write (path ++ ".temp".toList),
    StorageOp.close (path ++ ".temp".toList), StorageOp.rename (path ++ ".temp".toList) path]

/-- A storage holding the file `main.go`. -/
def oneFile : Store :=
  { fs := fun q => if q = "main.go".toList then some (Node.file "package main\n".toList) else none,
    ops := [] }

/-- The import declaration `import "github.com/other/thing"`. -/
def otherImport : ImportSpec := { Path := { Value := "\"github.com/other/thing\"".toList } }

/-- A source file whose only import is `otherImport`. -/
def otherFile : File := { Imports := [otherImport], Rest := [] }

/-- Every storage call succeeds but the rename. -/
def renameFails : Faults :=
  { create := none, print := none, torn := [], close := none, rename := some "rename failed" }

/-- A storage with an earlier copy `lib/old.go` in the destination directory and the
package `github.com/acme/lib` in the workspace. -/
def vendorStore : FS := fun q =>
  if q = "lib".toList then some Node.dir
  else if q = "lib/old.go".toList then some (Node.file "package old\n".toList)
  else if q = "/go/src/github.com/acme/lib".toList then some Node.dir
  else if q = "/go/src/github.com/acme/lib/new.go".toList then
    some (Node.file "package lib\n".toList)
  else none

/-- Every call of the copy stage succeeds; no version-control command gives output. -/
def allSucceed : CopyWorld :=
  { removeAll := fun _ => none, mkdirAll := none, cp := cpContents, Output := fun _ => .ok [] }

/-- A destination directory `lib` that is a git checkout. -/
def gitStore : FS := fun q =>
  if q = "lib".toList then some Node.dir
  else if q = "lib/.git".toList then some Node.dir
  else none

/-! ## Lemmas on the library functions -/

theorem strings.HasPrefix_iff (s pre : List Char) :
    strings.HasPrefix s pre = true ↔ pre <+: s := by
  unfold strings.HasPrefix
  rw [Bool.and_eq_true, decide_eq_true_iff, beq_iff_eq, List.prefix_iff_eq_take]
  constructor
  · rintro ⟨_, h⟩
    exact h.symm
  · intro h
    refine ⟨?_, h.symm⟩
    have := congrArg List.length h
    rw [List.length_take] at this
    omega

theorem strings.HasPrefix_self (s : List Char) : strings.HasPrefix s s = true :=
  (strings.HasPrefix_iff s s).2 (List.prefix_refl s)

/-! ## Lemmas on the loop over `deps` -/

theorem mangleDeps_append (Quote : List Char → List Char) (L I : List Char)
    (A B : List (List Char)) (st : List Char × Bool) :
    mangleDeps Quote L I (A ++ B) st = mangleDeps Quote L I B (mangleDeps Quote L I A st) := by
  induction A generalizing st with
  | nil => rfl
  | cons a A ih =>
    obtain ⟨v, c⟩ := st
    simp only [List.cons_append, mangleDeps]
    split <;> exact ih _

theorem mangleDeps_none (Quote : List Char → List Char) (L I : List Char)
    (D : List (List Char)) (st : List Char × Bool)
    (h : ∀ Q ∈ D, strings.HasPrefix I Q = false) :
    mangleDeps Quote L I D st = st := by
  induction D generalizing st with
  | nil => rfl
  | cons a D ih =>
    obtain ⟨v, c⟩ := st
    have ha : strings.HasPrefix I a = false := h a (List.mem_cons_self a D)
    simp only [mangleDeps, ha, Bool.false_eq_true, if_false]
    exact ih _ (fun Q hQ => h Q (List.mem_cons_of_mem a hQ))

theorem mangleDeps_last (Quote : List Char → List Char) (L I P : List Char)
    (D1 D2 : List (List Char)) (st : List Char × Bool)
    (hP : strings.HasPrefix I P = true) (h2 : ∀ Q ∈ D2, strings.HasPrefix I Q = false) :
    mangleDeps Quote L I (D1 ++ P :: D2) st =
      (Quote (L ++ ['/'] ++ filepath.Base P ++ I.drop P.length), true) := by
  rw [mangleDeps_append]
  generalize mangleDeps Quote L I D1 st = st1
  obtain ⟨v, c⟩ := st1
  simp only [mangleDeps, hP, if_true]
  exact mangleDeps_none Quote L I D2 _ h2

theorem mangleDeps_cases (Quote : List Char → List Char) (L I : List Char)
    (D : List (List Char)) (st : List Char × Bool) :
    ((∀ Q ∈ D, strings.HasPrefix I Q = false) ∧ mangleDeps Quote L I D st = st) ∨
    (∃ P ∈ D, strings.HasPrefix I P = true ∧
      mangleDeps Quote L I D st =
        (Quote (L ++ ['/'] ++ filepath.Base P ++ I.drop P.length), true)) := by
  induction D generalizing st with
  | nil => exact Or.inl ⟨by simp, rfl⟩
  | cons a D ih =>
    obtain ⟨v, c⟩ := st
    by_cases ha : strings.HasPrefix I a = true
    · simp only [mangleDeps, ha, if_true]
      rcases ih (Quote (L ++ ['/'] ++ filepath.Base a ++ I.drop a.length), true) with h | h
      · exact Or.inr ⟨a, List.mem_cons_self a D, ha, h.2⟩
      · obtain ⟨P, hPD, hP, hres⟩ := h
        exact Or.inr ⟨P, List.mem_cons_of_mem a hPD, hP, hres⟩
    · have ha0 : strings.HasPrefix I a = false := by simpa using ha
      simp only [mangleDeps, ha0, Bool.false_eq_true, if_false]
      rcases ih (v, c) with h | h
      · refine Or.inl ⟨?_, h.2⟩
        intro Q hQ
        rcases List.mem_cons.1 hQ with rfl | hQ
        · exact ha0
        · exact h.1 Q hQ
      · obtain ⟨P, hPD, hP, hres⟩ := h
        exact Or.inr ⟨P, List.mem_cons_of_mem a hPD, hP, hres⟩

theorem mangleImport_of_unquote (lib : Lib) (L I : List Char) (D : List (List Char))
    (s : ImportSpec) (c : Bool) (hs : lib.Unquote s.Path.Value = .ok I) :
    mangleImport lib L D s c =
      .ok ({ Path := { Value := (mangleDeps lib.Quote L I D (s.Path.Value, c)).1 } },
        (mangleDeps lib.Quote L I D (s.Path.Value, c)).2) := by
  unfold mangleImport
  rw [hs]

theorem mangleImports_unchanged (lib : Lib) (L : List Char) (D : List (List Char))
    (imports : List ImportSpec) (c : Bool)
    (h : ∀ s ∈ imports, ∃ p, lib.Unquote s.Path.Value = .ok p ∧
      ∀ dep ∈ D, strings.HasPrefix p dep = false) :
    mangleImports lib L D imports c = .ok (imports, c) := by
  induction imports generalizing c with
  | nil => rfl
  | cons s rest ih =>
    obtain ⟨p, hp, hno⟩ := h s (List.mem_cons_self s rest)
    have h1 : mangleImport lib L D s c = .ok (s, c) := by
      rw [mangleImport_of_unquote lib L p D s c hp, mangleDeps_none lib.Quote L p D _ hno]
    simp only [mangleImports, h1]
    rw [ih c (fun t ht => h t (List.mem_cons_of_mem s ht))]

theorem temp_ne_path (path : List Char) : path ++ ".temp".toList ≠ path := by
  intro h
  have := congrArg List.length h
  simp at this

theorem temp_ne_path_symm (path : List Char) : path ≠ path ++ ".temp".toList :=
  fun h => temp_ne_path path h.symm

/-! ## The import rewrite -/

/-- C1: when the import path `I` starts with the Dependency Prefix `P` of the
registry `D` and every prefix of `D` that `I` starts with equals `P`, the rewrite
replaces `I` by `L + "/" + basename(P) + I[len(P):]` and sets `changed`; for
`I = P` that is `L + "/" + basename(P)`; and for the registry
`["github.com/acme/lib"]`, `L = "myproj/vendor"` and `I = "github.com/acme/lib/util"`
the result is `"myproj/vendor/lib/util"`. -/
theorem mangleImport_only_match (lib : Lib) (L P I : List Char) (D : List (List Char))
    (s : ImportSpec) (c : Bool)
    (hs : lib.Unquote s.Path.Value = .ok I) (hPD : P ∈ D)
    (hP : strings.HasPrefix I P = true)
    (huniq : ∀ Q ∈ D, strings.HasPrefix I Q = true → Q = P) :
    mangleImport lib L D s c =
        .ok ({ Path := { Value := lib.Quote (L ++ ['/'] ++ filepath.Base P ++ I.drop P.length) } },
          true) ∧
      (I = P → mangleImport lib L D s c =
        .ok ({ Path := { Value := lib.Quote (L ++ ['/'] ++ filepath.Base P) } }, true)) ∧
      mangleImport (plainLib utilFile) "myproj/vendor".toList acmeDeps utilImport false =
        .ok ({ Path := { Value := "\"myproj/vendor/lib/util\"".toList } }, true) := by
  have key : mangleImport lib L D s c =
      .ok ({ Path := { Value := lib.Quote (L ++ ['/'] ++ filepath.Base P ++ I.drop P.length) } },
        true) := by
    rw [mangleImport_of_unquote lib L I D s c hs]
    rcases mangleDeps_cases lib.Quote L I D (s.Path.Value, c) with h | ⟨Q, hQD, hQ, hres⟩
    · rw [h.1 P hPD] at hP
      exact absurd hP (by decide)
    · rw [hres, huniq Q hQD hQ]
  refine ⟨key, ?_, by decide⟩
  intro hIP
  rw [key, hIP]
  simp

/-- Witness for C1: the end-to-end scenario of the specification. -/
theorem mangleImport_only_match_witness :
    mangleImport (plainLib utilFile) "myproj/vendor".toList acmeDeps utilImport false =
      .ok ({ Path := { Value := (plainLib utilFile).Quote ("myproj/vendor".toList ++ ['/'] ++
        filepath.Base "github.com/acme/lib".toList ++
        "github.com/acme/lib/util".toList.drop "github.com/acme/lib".toList.length) } }, true) :=
  (mangleImport_only_match (plainLib utilFile) "myproj/vendor".toList
    "github.com/acme/lib".toList "github.com/acme/lib/util".toList acmeDeps utilImport false
    (by decide) (by decide) (by decide) (by decide)).1

/-- C2 as stated fails: with the registry `["github.com/acme", "github.com/acme/lib"]`
the path `"github.com/acme/lib/util"` starts with both prefixes; the first one would
give `"myproj/vendor/acme/lib/util"`, the code gives `"myproj/vendor/lib/util"`,
which comes from the second one. -/
theorem mangleImport_first_match_fails :
    strings.HasPrefix "github.com/acme/lib/util".toList "github.com/acme".toList = true ∧
    mangleImport (plainLib utilFile) "myproj/vendor".toList nestedDeps utilImport false ≠
      .ok ({ Path := { Value := (plainLib utilFile).Quote ("myproj/vendor".toList ++ ['/'] ++
        filepath.Base "github.com/acme".toList ++
        "github.com/acme/lib/util".toList.drop "github.com/acme".toList.length) } }, true) ∧
    mangleImport (plainLib utilFile) "myproj/vendor".toList nestedDeps utilImport false =
      .ok ({ Path := { Value := "\"myproj/vendor/lib/util\"".toList } }, true) := by
  decide

/-- C2, amended: the last match wins.  When `P` is the last prefix of the registry
that the import path `I` starts with, the rewritten path is
`L + "/" + basename(P) + I[len(P):]`, whatever the prefixes before `P` are. -/
theorem mangleImport_last_match (lib : Lib) (L P I : List Char) (D1 D2 : List (List Char))
    (s : ImportSpec) (c : Bool)
    (hs : lib.Unquote s.Path.Value = .ok I)
    (hP : strings.HasPrefix I P = true)
    (hlast : ∀ Q ∈ D2, strings.HasPrefix I Q = false) :
    mangleImport lib L (D1 ++ P :: D2) s c =
      .ok ({ Path := { Value := lib.Quote (L ++ ['/'] ++ filepath.Base P ++ I.drop P.length) } },
        true) := by
  rw [mangleImport_of_unquote lib L I (D1 ++ P :: D2) s c hs,
    mangleDeps_last lib.Quote L I P D1 D2 (s.Path.Value, c) hP hlast]

/-- Witness for C2, amended: the second of two matching prefixes decides. -/
theorem mangleImport_last_match_witness :
    mangleImport (plainLib utilFile) "myproj/vendor".toList
        (["github.com/acme".toList] ++ "github.com/acme/lib".toList :: []) utilImport false =
      .ok ({ Path := { Value := (plainLib utilFile).Quote ("myproj/vendor".toList ++ ['/'] ++
        filepath.Base "github.com/acme/lib".toList ++
        "github.com/acme/lib/util".toList.drop "github.com/acme/lib".toList.length) } }, true) :=
  mangleImport_last_match (plainLib utilFile) "myproj/vendor".toList
    "github.com/acme/lib".toList "github.com/acme/lib/util".toList
    ["github.com/acme".toList] [] utilImport false (by decide) (by decide) (by decide)

/-- C10: with `deps` as loaded by `main` (the persisted prefixes followed by `imp`)
and `dest = filepath.Base(imp)`, every import path `I` that starts with `imp` is
rewritten to `curgodir + "/" + dest + I[len(imp):]`, whatever the persisted list
holds. -/
theorem mangleImport_self_reference (lib : Lib) (depFile : Except Error (List Char))
    (curgodir imp I : List Char) (s : ImportSpec) (c : Bool)
    (hs : lib.Unquote s.Path.Value = .ok I)
    (himp : strings.HasPrefix I imp = true) :
    mangleImport lib curgodir (loadDeps depFile imp) s c =
      .ok ({ Path := { Value := lib.Quote (curgodir ++ ['/'] ++ filepath.Base imp ++
        I.drop imp.length) } }, true) := by
  rw [mangleImport_of_unquote lib curgodir I (loadDeps depFile imp) s c hs]
  have h := mangleDeps_last lib.Quote curgodir I imp
    (loadDeps depFile imp).dropLast [] (s.Path.Value, c) himp (by simp)
  have hd : (loadDeps depFile imp).dropLast ++ [imp] = loadDeps depFile imp := by
    simp [loadDeps]
  rw [hd] at h
  rw [h]

/-- Witness for C10: the persisted list holds a prefix of the package path. -/
theorem mangleImport_self_reference_witness :
    mangleImport (plainLib utilFile) "myproj/vendor".toList
        (loadDeps (.ok "github.com/acme\n".toList) "github.com/acme/lib".toList)
        utilImport false =
      .ok ({ Path := { Value := (plainLib utilFile).Quote ("myproj/vendor".toList ++ ['/'] ++
        filepath.Base "github.com/acme/lib".toList ++
        "github.com/acme/lib/util".toList.drop "github.com/acme/lib".toList.length) } }, true) :=
  mangleImport_self_reference (plainLib utilFile) (.ok "github.com/acme\n".toList)
    "myproj/vendor".toList "github.com/acme/lib".toList "github.com/acme/lib/util".toList
    utilImport false (by decide) (by decide)

/-- C9: when no prefix of the registry `D` is a prefix of a rewrite target
`L + "/" + basename(P)` (`P` in `D`) and no rewrite target is a prefix of a prefix of
`D`, a second application of the rewrite to an import leaves what the first one
produced and reports no change. -/
theorem mangleImport_idempotent (lib : Lib) (L I : List Char) (D : List (List Char))
    (s : ImportSpec) (c : Bool)
    (hq : ∀ x, lib.Unquote (lib.Quote x) = .ok x)
    (hs : lib.Unquote s.Path.Value = .ok I)
    (hdisj : ∀ P ∈ D, ∀ Q ∈ D,
      strings.HasPrefix (L ++ ['/'] ++ filepath.Base P) Q = false ∧
      strings.HasPrefix Q (L ++ ['/'] ++ filepath.Base P) = false) :
    ∃ s1 c1, mangleImport lib L D s c = .ok (s1, c1) ∧
      mangleImport lib L D s1 false = .ok (s1, false) := by
  rw [mangleImport_of_unquote lib L I D s c hs]
  rcases mangleDeps_cases lib.Quote L I D (s.Path.Value, c) with h | ⟨P, hPD, _, hres⟩
  · refine ⟨_, _, rfl, ?_⟩
    rw [h.2]
    rw [mangleImport_of_unquote lib L I D _ false hs, mangleDeps_none lib.Quote L I D _ h.1]
  · refine ⟨_, _, rfl, ?_⟩
    rw [hres]
    have hnone : ∀ Q ∈ D, strings.HasPrefix
        (L ++ ['/'] ++ filepath.Base P ++ I.drop P.length) Q = false := by
      intro Q hQD
      by_contra hne
      have hQ : Q <+: L ++ ['/'] ++ filepath.Base P ++ I.drop P.length :=
        (strings.HasPrefix_iff _ _).1 (by simpa using hne)
      have hT : L ++ ['/'] ++ filepath.Base P <+:
          L ++ ['/'] ++ filepath.Base P ++ I.drop P.length := List.prefix_append _ _
      obtain ⟨h1, h2⟩ := hdisj P hPD Q hQD
      rcases List.prefix_or_prefix_of_prefix hQ hT with h | h
      · rw [(strings.HasPrefix_iff _ _).2 h] at h1
        exact absurd h1 (by decide)
      · rw [(strings.HasPrefix_iff _ _).2 h] at h2
        exact absurd h2 (by decide)
    rw [mangleImport_of_unquote lib L _ D _ false (hq _), mangleDeps_none lib.Quote L _ D _ hnone]

/-- Witness for C9: the end-to-end scenario, rewritten twice. -/
theorem mangleImport_idempotent_witness :
    ∃ s1 c1, mangleImport (plainLib utilFile) "myproj/vendor".toList acmeDeps utilImport false =
        .ok (s1, c1) ∧
      mangleImport (plainLib utilFile) "myproj/vendor".toList acmeDeps s1 false =
        .ok (s1, false) :=
  mangleImport_idempotent (plainLib utilFile) "myproj/vendor".toList
    "github.com/acme/lib/util".toList acmeDeps utilImport false
    (by intro x; simp [plainLib]) (by decide) (by decide)

/-! ## The file rewriter and the storage -/

/-- C3: for a file that parses and none of whose import paths starts with a
Dependency Prefix (a file without imports included), the loop over the imports
leaves every import as it was with `changed` false, and `mangleFile` returns nil,
leaves the storage as it was and attempts no create, write, close or rename. -/
theorem mangleFile_unchanged (lib : Lib) (faults : Faults) (curgodir : List Char)
    (deps : List (List Char)) (path : List Char) (st : Store) (f : File)
    (hparse : lib.ParseFile st.fs path = .ok f)
    (hno : ∀ s ∈ f.Imports, ∃ p, lib.Unquote s.Path.Value = .ok p ∧
      ∀ dep ∈ deps, strings.HasPrefix p dep = false) :
    mangleImports lib curgodir deps f.Imports false = .ok (f.Imports, false) ∧
    (mangleFile lib faults curgodir deps path st).1 = none ∧
    (mangleFile lib faults curgodir deps path st).2.fs = st.fs ∧
    (mangleFile lib faults curgodir deps path st).2.ops = st.ops := by
  have h := mangleImports_unchanged lib curgodir deps f.Imports false hno
  refine ⟨h, ?_⟩
  unfold mangleFile
  rw [hparse]
  simp only [h]
  simp

/-- Witness for C3: the registry `["github.com/acme/lib"]` and a file importing
`"github.com/other/thing"`. -/
theorem mangleFile_unchanged_witness :
    mangleImports (plainLib otherFile) "myproj/vendor".toList acmeDeps otherFile.Imports false =
      .ok (otherFile.Imports, false) ∧
    (mangleFile (plainLib otherFile) renameFails "myproj/vendor".toList acmeDeps
      "main.go".toList oneFile).1 = none ∧
    (mangleFile (plainLib otherFile) renameFails "myproj/vendor".toList acmeDeps
      "main.go".toList oneFile).2.fs = oneFile.fs ∧
    (mangleFile (plainLib otherFile) renameFails "myproj/vendor".toList acmeDeps
      "main.go".toList oneFile).2.ops = oneFile.ops :=
  mangleFile_unchanged (plainLib otherFile) renameFails "myproj/vendor".toList acmeDeps
    "main.go".toList oneFile otherFile rfl (by
      intro s hs
      have hs1 : s = otherImport := by simpa [otherFile] using hs
      rw [hs1]
      exact ⟨"github.com/other/thing".toList, by decide, by decide⟩)

/-- C5: whatever fails (parsing, unquoting, creating the temporary file, printing,
closing, renaming), when `mangleFile` returns an error the content stored at `path`
is what it was before the call; the storage calls made are an initial part of
create, write, close, rename; the rename is attempted only after create, print and
close have succeeded, and what is stored at `path` differs afterwards only when
the rename has succeeded too. -/
theorem mangleFile_atomic (lib : Lib) (faults : Faults) (curgodir : List Char)
    (deps : List (List Char)) (path : List Char) (st : Store) :
    (∀ e, (mangleFile lib faults curgodir deps path st).1 = some e →
      (mangleFile lib faults curgodir deps path st).2.fs path = st.fs path) ∧
    (∃ calls, (mangleFile lib faults curgodir deps path st).2.ops = st.ops ++ calls ∧
      calls <+: rewriteOps path ∧
      (StorageOp.rename (path ++ ".temp".toList) path ∈ calls →
        faults.create = none ∧ faults.print = none ∧ faults.close = none)) ∧
    ((mangleFile lib faults curgodir deps path st).2.fs path ≠ st.fs path →
      faults.create = none ∧ faults.print = none ∧ faults.close = none ∧
      faults.rename = none ∧ (mangleFile lib faults curgodir deps path st).1 = none) := by
  have hne := temp_ne_path_symm path
  cases hp : lib.ParseFile st.fs path with
  | error e =>
    refine ⟨?_, ⟨[], ?_, ?_, ?_⟩, ?_⟩ <;> simp [mangleFile, hp, rewriteOps]
  | ok f =>
    cases hm : mangleImports lib curgodir deps f.Imports false with
    | error e =>
      refine ⟨?_, ⟨[], ?_, ?_, ?_⟩, ?_⟩ <;> simp [mangleFile, hp, hm, rewriteOps]
    | ok r =>
      obtain ⟨imports, changed⟩ := r
      cases changed with
      | false =>
        refine ⟨?_, ⟨[], ?_, ?_, ?_⟩, ?_⟩ <;> simp [mangleFile, hp, hm, rewriteOps]
      | true =>
        cases hc : faults.create with
        | some e =>
          refine ⟨?_, ⟨[StorageOp.create (path ++ ".temp".toList)], ?_, ?_, ?_⟩, ?_⟩ <;>
            simp [mangleFile, hp, hm, hc, rewriteOps]
        | none =>
          cases hpr : faults.print with
          | some e =>
            refine ⟨?_, ⟨[StorageOp.create (path ++ ".temp".toList),
              StorageOp.write (path ++ ".temp".toList)], ?_, ?_, ?_⟩, ?_⟩ <;>
              simp [mangleFile, hp, hm, hc, hpr, rewriteOps, FS.put, hne]
          | none =>
            cases hcl : faults.close with
            | some e =>
              refine ⟨?_, ⟨[StorageOp.create (path ++ ".temp".toList),
                StorageOp.write (path ++ ".temp".toList),
                StorageOp.close (path ++ ".temp".toList)], ?_, ?_, ?_⟩, ?_⟩ <;>
                simp [mangleFile, hp, hm, hc, hpr, hcl, rewriteOps, FS.put, hne]
            | none =>
              cases hr : faults.rename with
              | some e =>
                refine ⟨?_, ⟨rewriteOps path, ?_, List.prefix_refl _, ?_⟩, ?_⟩ <;>
                  simp [mangleFile, hp, hm, hc, hpr, hcl, hr, rewriteOps, FS.put, hne]
              | none =>
                refine ⟨?_, ⟨rewriteOps path, ?_, List.prefix_refl _, ?_⟩, ?_⟩ <;>
                  simp [mangleFile, hp, hm, hc, hpr, hcl, hr, rewriteOps, FS.put, hne]

/-- Witness for C5: the rename fails after a complete write of the temporary file;
the error is returned and `main.go` holds what it held. -/
theorem mangleFile_atomic_witness :
    (mangleFile (plainLib utilFile) renameFails "myproj/vendor".toList acmeDeps
      "main.go".toList oneFile).1 = some "rename failed" ∧
    (mangleFile (plainLib utilFile) renameFails "myproj/vendor".toList acmeDeps
      "main.go".toList oneFile).2.fs "main.go".toList = oneFile.fs "main.go".toList :=
  ⟨by decide, (mangleFile_atomic (plainLib utilFile) renameFails "myproj/vendor".toList acmeDeps
    "main.go".toList oneFile).1 "rename failed" (by decide)⟩

/-! ## The walk callback -/

/-- C7 fails on the code: for a nil `info`, which `filepath.Walk` passes together
with the visit error when `os.Lstat` fails, `mangle` does not return: `info.IsDir()`
panics and the walk ends.  For every other `info`, `mangle` returns nil whatever
`mangleFile` returns, and `mangleFile` is called exactly when the entry is not
a directory and `path` ends in ".go". -/
theorem mangle_nil_info_panics (lib : Lib) (faults : Faults) (curgodir : List Char)
    (deps : List (List Char)) (path : List Char) (err : Option Error) (p : Proc) :
    mangle lib faults curgodir deps path none err p = Run.panicked ∧
    ∀ i : FileInfo, ∃ p1, mangle lib faults curgodir deps path (some i) err p = .ret (none, p1) ∧
      p1.mangled = p.mangled ++
        (if !i.IsDir && strings.HasSuffix path ".go".toList then [path] else []) := by
  refine ⟨rfl, ?_⟩
  intro i
  simp only [mangle]
  split
  · split
    · exact ⟨_, rfl, by cases err <;> rfl⟩
    · exact ⟨_, rfl, by cases err <;> rfl⟩
  · exact ⟨_, rfl, by cases err <;> simp⟩

/-! ## Registry loading -/

theorem strings.hasPrefix_newline (c : Char) (cs : List Char) :
    strings.HasPrefix (c :: cs) ['\n'] = (c == '\n') := by
  simp [strings.HasPrefix]

theorem strings.splitLoop_line (p : List Char) (hp : ∀ c ∈ p, c ≠ '\n') (cur : List Char) :
    strings.splitLoop ['\n'] 0 cur p = [cur.reverse ++ p] ∧
    ∀ t, strings.splitLoop ['\n'] 0 cur (p ++ '\n' :: t) =
      (cur.reverse ++ p) :: strings.splitLoop ['\n'] 0 [] t := by
  induction p generalizing cur with
  | nil =>
    refine ⟨by simp [strings.splitLoop], fun t => ?_⟩
    simp [strings.splitLoop, strings.hasPrefix_newline]
  | cons a p ih =>
    have ha : a ≠ '\n' := hp a (List.mem_cons_self a p)
    have ih1 := ih (fun c hc => hp c (List.mem_cons_of_mem a hc)) (a :: cur)
    refine ⟨?_, fun t => ?_⟩
    · simp only [strings.splitLoop, strings.hasPrefix_newline]
      simp [ha, ih1.1]
    · simp only [List.cons_append, strings.splitLoop, strings.hasPrefix_newline]
      simp [ha, ih1.2 t]

theorem strings.Split_joinLines (ps : List (List Char)) (hne : ps ≠ [])
    (hp : ∀ p ∈ ps, ∀ c ∈ p, c ≠ '\n') :
    strings.Split (joinLines ps) ['\n'] = ps := by
  unfold strings.Split
  induction ps with
  | nil => exact absurd rfl hne
  | cons p rest ih =>
    cases rest with
    | nil =>
      simp [joinLines, (strings.splitLoop_line p (hp p (List.mem_cons_self p [])) []).1]
    | cons q rest =>
      have h1 := (strings.splitLoop_line p (hp p (List.mem_cons_self p _)) []).2
        (joinLines (q :: rest))
      simp only [joinLines, h1]
      rw [ih (by simp) (fun r hr => hp r (List.mem_cons_of_mem p hr))]
      simp

theorem joinLines_ends (ps : List (List Char)) (hne : ps ≠ [])
    (hp : ∀ p ∈ ps, p ≠ [] ∧ ∀ c ∈ p, strings.isSpace c = false) :
    (∃ a t, joinLines ps = a :: t ∧ strings.isSpace a = false) ∧
    (∃ u b, joinLines ps = u ++ [b] ∧ strings.isSpace b = false) := by
  induction ps with
  | nil => exact absurd rfl hne
  | cons p rest ih =>
    obtain ⟨hpne, hpc⟩ := hp p (List.mem_cons_self p rest)
    obtain ⟨a, t, rfl⟩ := List.exists_cons_of_ne_nil hpne
    cases rest with
    | nil =>
      refine ⟨⟨a, t, rfl, hpc a (List.mem_cons_self a t)⟩, ?_⟩
      refine ⟨(a :: t).dropLast, (a :: t).getLast (by simp), ?_, ?_⟩
      · simp only [joinLines]
        exact (List.dropLast_append_getLast _).symm
      · exact hpc _ (List.getLast_mem _)
    | cons q rest =>
      refine ⟨⟨a, t ++ '\n' :: joinLines (q :: rest), rfl, hpc a (List.mem_cons_self a t)⟩, ?_⟩
      obtain ⟨u, b, hu, hb⟩ := (ih (by simp) (fun r hr => hp r (List.mem_cons_of_mem _ hr))).2
      refine ⟨(a :: t) ++ '\n' :: u, b, ?_, hb⟩
      simp only [joinLines, hu]
      simp

theorem strings.TrimSpace_line (s : List Char)
    (h1 : ∃ a t, s = a :: t ∧ strings.isSpace a = false)
    (h2 : ∃ u b, s = u ++ [b] ∧ strings.isSpace b = false) :
    strings.TrimSpace (s ++ ['\n']) = s := by
  obtain ⟨a, t, hs, ha⟩ := h1
  obtain ⟨u, b, hu, hb⟩ := h2
  unfold strings.TrimSpace
  have hd : (s ++ ['\n']).dropWhile strings.isSpace = s ++ ['\n'] := by
    rw [hs]
    simp [List.dropWhile, ha]
  rw [hd, hu]
  have hnl : strings.isSpace '\n' = true := by decide
  simp [List.dropWhile, hb, hnl]

/-- A `dependencies` file that holds at least one prefix, one per line and without
white space inside the prefixes, loads as those prefixes in file order followed by
`imp`. -/
theorem loadDeps_lines (ps : List (List Char)) (imp : List Char) (hne : ps ≠ [])
    (hp : ∀ p ∈ ps, p ≠ [] ∧ ∀ c ∈ p, strings.isSpace c = false) :
    loadDeps (.ok (joinLines ps ++ ['\n'])) imp = ps ++ [imp] := by
  have he := joinLines_ends ps hne hp
  have hnl : ∀ p ∈ ps, ∀ c ∈ p, c ≠ '\n' := by
    intro p hpm c hc hcn
    have := (hp p hpm).2 c hc
    rw [hcn] at this
    exact absurd this (by decide)
  simp only [loadDeps]
  rw [strings.TrimSpace_line _ he.1 he.2]
  have : "\n".toList = ['\n'] := rfl
  rw [this, strings.Split_joinLines ps hne hnl]

/-- C4 fails on the code: when the `dependencies` file exists and holds no prefix
(it is empty), the loaded registry is `["", imp]`, not `[imp]`: `strings.Split` of
the empty string gives one empty piece.  Every import path starts with the empty
prefix, so an import like `"fmt"` is rewritten (here to `"myproj/vendor/.fmt"`).
When the file is missing the registry is `[imp]`. -/
theorem loadDeps_empty_file (imp : List Char) :
    loadDeps (.ok []) imp = [[], imp] ∧
    loadDeps (.ok []) imp ≠ [imp] ∧
    (∀ e, loadDeps (.error e) imp = [imp]) ∧
    mangleImport (plainLib utilFile) "myproj/vendor".toList
        (loadDeps (.ok []) "github.com/acme/lib".toList)
        { Path := { Value := "\"fmt\"".toList } } false =
      .ok ({ Path := { Value := "\"myproj/vendor/.fmt\"".toList } }, true) := by
  refine ⟨rfl, ?_, fun _ => rfl, by decide⟩
  intro h
  have h2 : loadDeps (.ok []) imp = [[], imp] := rfl
  rw [h2] at h
  simp at h

/-! ## The copy stage -/

/-- C6 fails on the code: the copy stage removes `imp`, not `dest`.  For
`imp = "github.com/acme/lib"` the destination is `lib`; the file `lib/old.go` that
was there before the run is still there after the copy stage, next to the copied
`lib/new.go`. -/
theorem copyStage_keeps_old_destination :
    filepath.Base "github.com/acme/lib".toList = "lib".toList ∧
    (copyStage allSucceed "github.com/acme/lib".toList "/go/src/github.com/acme/lib".toList
      vendorStore).bind (fun r => Run.ret (r.2 "lib/old.go".toList, r.2 "lib/new.go".toList)) =
      Run.ret (some (Node.file "package old\n".toList),
        some (Node.file "package lib\n".toList)) := by
  decide

/-! ## Revision detection -/

/-- C8 as stated fails: the destination holds `.git` and the revision command
fails; `rev` does not return the empty string, the process ends in `log.Fatal`. -/
theorem rev_command_failure_is_fatal :
    rev (fun _ => .error "exit status 128") gitStore "lib".toList = Run.fatal "exit status 128" ∧
    rev (fun _ => .error "exit status 128") gitStore "lib".toList ≠ Run.ret [] := by
  decide

/-- C8, amended: `rev` probes `.git`, `.hg`, `.bzr` in that order.  When none exists it
returns the empty string.  When the revision command of the first one found fails,
`rev` does not return: the process ends in `log.Fatal` with the error.  When the
command succeeds, `rev` returns its output without the surrounding white space, cut
to the first 8 characters for git and hg when there are at least 8. -/
theorem rev_outcomes (Output : List String → Except Error (List Char)) (fs : FS)
    (dest : List Char) :
    (Stat fs (dest ++ "/.git".toList) = false → Stat fs (dest ++ "/.hg".toList) = false →
      Stat fs (dest ++ "/.bzr".toList) = false → rev Output fs dest = .ret []) ∧
    (∀ e, Stat fs (dest ++ "/.git".toList) = true →
      Output ["git", "rev-parse", "--verify", "HEAD"] = .error e →
      rev Output fs dest = .fatal e) ∧
    (∀ e, Stat fs (dest ++ "/.git".toList) = false → Stat fs (dest ++ "/.hg".toList) = true →
      Output ["hg", "id", "-i"] = .error e → rev Output fs dest = .fatal e) ∧
    (∀ e, Stat fs (dest ++ "/.git".toList) = false → Stat fs (dest ++ "/.hg".toList) = false →
      Stat fs (dest ++ "/.bzr".toList) = true →
      Output ["bzr", "revno"] = .error e → rev Output fs dest = .fatal e) ∧
    (∀ out, Stat fs (dest ++ "/.git".toList) = true →
      Output ["git", "rev-parse", "--verify", "HEAD"] = .ok out →
      8 ≤ (strings.TrimSpace out).length →
      rev Output fs dest = .ret ((strings.TrimSpace out).take 8)) ∧
    (∀ out, Stat fs (dest ++ "/.git".toList) = false → Stat fs (dest ++ "/.hg".toList) = true →
      Output ["hg", "id", "-i"] = .ok out → 8 ≤ (strings.TrimSpace out).length →
      rev Output fs dest = .ret ((strings.TrimSpace out).take 8)) ∧
    (∀ out, Stat fs (dest ++ "/.git".toList) = false → Stat fs (dest ++ "/.hg".toList) = false →
      Stat fs (dest ++ "/.bzr".toList) = true →
      Output ["bzr", "revno"] = .ok out → rev Output fs dest = .ret (strings.TrimSpace out)) := by
  refine ⟨?_, ?_, ?_, ?_, ?_, ?_, ?_⟩
  · intro h1 h2 h3
    simp only [rev, h1, h2, h3, Bool.false_eq_true, if_false]
  · intro e h1 ho
    simp only [rev, h1, ho, revCmd, Run.bind, if_true]
  · intro e h1 h2 ho
    simp only [rev, h1, h2, ho, revCmd, Run.bind, Bool.false_eq_true, if_false, if_true]
  · intro e h1 h2 h3 ho
    simp only [rev, h1, h2, h3, ho, revCmd, Bool.false_eq_true, if_false, if_true]
  · intro out h1 ho hlen
    simp only [rev, h1, ho, revCmd, Run.bind, slice8, if_true, if_pos hlen]
  · intro out h1 h2 ho hlen
    simp only [rev, h1, h2, ho, revCmd, Run.bind, slice8, Bool.false_eq_true, if_false,
      if_true, if_pos hlen]
  · intro out h1 h2 h3 ho
    simp only [rev, h1, h2, h3, ho, revCmd, Bool.false_eq_true, if_false, if_true]

/-- Witness for C8, amended: no marker gives the empty string; a git checkout whose
revision command fails ends the process; one whose command prints a hash gives its
first 8 characters. -/
theorem rev_outcomes_witness :
    rev (fun _ => .error "exit status 128") vendorStore "lib".toList = .ret [] ∧
    rev (fun _ => .error "exit status 128") gitStore "lib".toList = .fatal "exit status 128" ∧
    rev (fun _ => .ok "0123456789abcdef\n".toList) gitStore "lib".toList =
      .ret ((strings.TrimSpace "0123456789abcdef\n".toList).take 8) :=
  ⟨(rev_outcomes (fun _ => .error "exit status 128") vendorStore "lib".toList).1
      (by decide) (by decide) (by decide),
    (rev_outcomes (fun _ => .error "exit status 128") gitStore "lib".toList).2.1
      "exit status 128" (by decide) rfl,
    (rev_outcomes (fun _ => .ok "0123456789abcdef\n".toList) gitStore "lib".toList).2.2.2.2.1
      "0123456789abcdef\n".toList (by decide) rfl (by decide)⟩

end Goven
